import Mathlib

/-!
Verification of the tool-registry and agent-orchestrator core of the
emergent-agent repository.

The JavaScript sources are shallowly embedded:

* `src/src/tools/registry.js` — the `ToolRegistry` class (a `Map` with
  secondary indices) becomes the `Registry` structure; each method becomes a
  pure Lean function on `Registry`.  JS `Map`s and `Set`s are modelled as
  insertion-ordered association lists and duplicate-free lists, matching the
  iteration-order semantics the code relies on.
* the orchestrator source (`initializeAgentOrchestrator` /
  `processQuery` / `cleanupIdleContexts`) becomes pure functions over a
  `SessionContext` state; external collaborators (planner, executor,
  synthesizer, persistence) are modelled by an outcome parameter since only
  their success or failure is visible to the embedded control flow.
* JS strings are modelled as `List Char` (`Str`); `toLowerCase` is
  `Char.toLower` mapped over the list, `includes` is a substring test,
  and JS truthiness of a possibly-absent string is `jsStr`.
* JS numbers are modelled as `ℚ` where arithmetic matters (scores,
  average execution time) and as `ℤ` for millisecond timestamps.

`src/src/tools/validator.js` and the context constructor module are absent
from the repository snapshot; the two definitions modelled from the spec are
marked as such in their doc comments.
-/

/-- JS strings, modelled as lists of characters. -/
abbrev Str := List Char

/-- Embedding of `s.toLowerCase()`. -/
def lower (s : Str) : Str := s.map Char.toLower

/-- True when `pre` is a prefix of `s` (helper for the substring test). -/
def strHasPre (pre s : Str) : Bool :=
  match pre, s with
  | [], _ => true
  | _ :: _, [] => false
  | a :: as, b :: bs => a == b && strHasPre as bs

/-- Embedding of `hay.includes(needle)` on JS strings. -/
def strIncl (hay needle : Str) : Bool :=
  match hay with
  | [] => needle.isEmpty
  | _ :: t => strHasPre needle hay || strIncl t needle

/-- JS truthiness of a possibly-absent string: `undefined` and `""` are
falsy, every other string truthy. -/
def jsStr : Option Str → Option Str
  | none => none
  | some s => if s = [] then none else some s

/-! ### Association lists: the model of JS `Map` (insertion-ordered). -/

/-- Embedding of `map.get(k)` (also of `map.has(k)` via `Option.isSome`). -/
def aget {α : Type} (m : List (Str × α)) (k : Str) : Option α :=
  match m with
  | [] => none
  | p :: rest => if p.1 = k then some p.2 else aget rest k

/-- Embedding of `map.set(k, v)`: replace in place if the key is present,
otherwise append (JS `Map` keeps the original insertion position on
overwrite). -/
def aset {α : Type} (m : List (Str × α)) (k : Str) (v : α) : List (Str × α) :=
  match m with
  | [] => [(k, v)]
  | p :: rest => if p.1 = k then (k, v) :: rest else p :: aset rest k v

/-- Embedding of `map.delete(k)`. -/
def adel {α : Type} (m : List (Str × α)) (k : Str) : List (Str × α) :=
  m.filter (fun p => !(p.1 = k : Bool))

/-- Embedding of `set.add(x)` on a JS `Set` modelled as a list. -/
def sadd (s : List Str) (x : Str) : List Str :=
  if x ∈ s then s else s ++ [x]

/-- Embedding of `set.delete(x)` on a JS `Set` modelled as a list. -/
def sdel (s : List Str) (x : Str) : List Str :=
  s.filter (fun y => !(y = x : Bool))

/-! ### The registry data model (`src/src/tools/registry.js`). -/

/-- A validated tool as stored in the registry: the fields of the definition
object that the registry operations read.  `hasExec` records the presence of
the `execute` handler (a function value, not otherwise inspectable). -/
structure Tool where
  tid : Option Str
  name : Str
  description : Option Str
  category : Option Str
  capabilities : List Str
  keywords : List Str
  inputTypes : List Str
  outputTypes : List Str
  hasExec : Bool
deriving DecidableEq, Repr

/-- A raw tool definition as passed to `registerTool`: `name` and the
execute handler may be missing. -/
structure ToolDef where
  tid : Option Str
  name : Option Str
  description : Option Str
  category : Option Str
  capabilities : List Str
  keywords : List Str
  inputTypes : List Str
  outputTypes : List Str
  hasExec : Bool
deriving DecidableEq, Repr

/-- Validation failure, surfaced by the validator and caught inside
`registerTool`. -/
inductive ValidationError where
  | missingName
  | missingExec
deriving DecidableEq, Repr

/-- Modelled from the spec: `src/src/tools/validator.js` is absent from the
repository snapshot.  Section 4.1 of the specification states that
registration "validates required fields (`name`, `execute-handle`; others
optional)", so the validator rejects a definition whose `name` is missing
(or empty, which is falsy in JS) or whose execute handler is missing, and
otherwise passes the definition through. -/
def validateToolDefinition (d : ToolDef) : Except ValidationError Tool :=
  match jsStr d.name with
  | none => .error .missingName
  | some n =>
    if d.hasExec then
      .ok ⟨d.tid, n, d.description, d.category, d.capabilities, d.keywords,
           d.inputTypes, d.outputTypes, true⟩
    else
      .error .missingExec

/-- Per-tool usage statistics (`usageStats` values). -/
structure ToolStats where
  successCount : Nat
  failureCount : Nat
  averageExecutionTime : ℚ
  totalExecutions : Nat
  lastUsed : Option Nat
deriving DecidableEq, Repr

/-- The statistics a fresh registration receives. -/
def initialStats : ToolStats :=
  { successCount := 0, failureCount := 0, averageExecutionTime := 0,
    totalExecutions := 0, lastUsed := none }

/-- The `ToolRegistry` state: the primary `Map` payload plus the secondary
indices.  The JS `metadataIndex` map is split by its disjoint key prefixes
into `nameIdx` (`name:` entries), `capIdx` (`capability:` entries) and
`kwIdx` (`keyword:` entries). -/
structure Registry where
  tools : List (Str × Tool)
  categories : List (Str × List Str)
  capabilities : List Str
  nameIdx : List (Str × Str)
  capIdx : List (Str × List Str)
  kwIdx : List (Str × List Str)
  usageStats : List (Str × ToolStats)
deriving DecidableEq, Repr

/-- The state `new ToolRegistry()` starts from. -/
def emptyRegistry : Registry :=
  { tools := [], categories := [], capabilities := [], nameIdx := [],
    capIdx := [], kwIdx := [], usageStats := [] }

/-- One iteration of the `capability:` / `keyword:` indexing loop of
`registerTool`: ensure the set for key `k` exists, then add `id` to it. -/
def idxAdd (m : List (Str × List Str)) (k : Str) (id : Str) :
    List (Str × List Str) :=
  aset m k (sadd ((aget m k).getD []) id)

/-- Adding one id to the indexed set of every key in `ks` in order
(the `capability:` / `keyword:` loops of `registerTool`). -/
def addAll (m : List (Str × List Str)) (ks : List Str) (id : Str) :
    List (Str × List Str) :=
  ks.foldl (fun m k => idxAdd m k id) m

/-- One iteration of the index-removal loops of `unregisterTool`: drop `id`
from the set for key `k` (if present) and delete the key when its set
becomes empty. -/
def idxDrop (m : List (Str × List Str)) (k : Str) (id : Str) :
    List (Str × List Str) :=
  match aget m k with
  | none => m
  | some s =>
    let s' := sdel s id
    if s' = [] then adel m k else aset m k s'

/-- Removing one id from the indexed set of every key in `ks`
(the loops of `unregisterTool`). -/
def removeAll (m : List (Str × List Str)) (ks : List Str) (id : Str) :
    List (Str × List Str) :=
  ks.foldl (fun m k => idxDrop m k id) m

/-- Category-index block of `registerTool`: when the tool has a (truthy)
category, ensure the category set exists and add the id to it. -/
def catAdd (cats : List (Str × List Str)) (cat : Option Str) (id : Str) :
    List (Str × List Str) :=
  match jsStr cat with
  | some c => idxAdd cats c id
  | none => cats

/-- Category-index block of `unregisterTool`: when the tool has a (truthy)
category whose set exists, drop the id, deleting the emptied category. -/
def catDrop (cats : List (Str × List Str)) (cat : Option Str) (id : Str) :
    List (Str × List Str) :=
  match jsStr cat with
  | some c => idxDrop cats c id
  | none => cats

/-- The registry state after the successful body of `registerTool`: the
sequence of `set` / `add` statements of the source, one per field of the
state (the updates touch disjoint maps, collapsed here into one record). -/
def registerOk (r : Registry) (t : Tool) (toolId : Str) : Registry :=
  { tools := aset r.tools toolId t,
    nameIdx := aset r.nameIdx (lower t.name) toolId,
    categories := catAdd r.categories t.category toolId,
    capabilities := t.capabilities.foldl sadd r.capabilities,
    capIdx := addAll r.capIdx (t.capabilities.map lower) toolId,
    kwIdx := addAll r.kwIdx (t.keywords.map lower) toolId,
    usageStats := aset r.usageStats toolId initialStats }

/-- Embedding of `ToolRegistry.registerTool`.  `freshId` stands for the
`uuidv4()` the code draws when the definition carries no (truthy) id.
Returns the JS boolean result together with the updated registry (a thrown
`ValidationError` is caught, logged, and surfaced as `false` with the
registry untouched). -/
def registerTool (r : Registry) (d : ToolDef) (freshId : Str) :
    Bool × Registry :=
  match validateToolDefinition d with
  | .error _ => (false, r)
  | .ok t => (true, registerOk r t ((jsStr t.tid).getD freshId))

/-- The registry state after the successful body of `unregisterTool`: the
sequence of `delete` statements of the source, one per field of the state
(`capabilities` is the one index the source never cleans up). -/
def unregisterFound (r : Registry) (toolId : Str) (tool : Tool) : Registry :=
  { tools := adel r.tools toolId,
    nameIdx := adel r.nameIdx (lower tool.name),
    categories := catDrop r.categories tool.category toolId,
    capabilities := r.capabilities,
    capIdx := removeAll r.capIdx (tool.capabilities.map lower) toolId,
    kwIdx := removeAll r.kwIdx (tool.keywords.map lower) toolId,
    usageStats := adel r.usageStats toolId }

/-- Embedding of `ToolRegistry.unregisterTool` (lookup by id, else by
lower-cased name; `false` when the identifier resolves to nothing). -/
def unregisterTool (r : Registry) (toolIdentifier : Str) : Bool × Registry :=
  match
    (if (aget r.tools toolIdentifier).isSome then some toolIdentifier
     else aget r.nameIdx (lower toolIdentifier)) with
  | none => (false, r)
  | some toolId =>
    match aget r.tools toolId with
    | none => (false, r)
    | some tool => (true, unregisterFound r toolId tool)

/-- Search criteria for `findTools`; every field is optional, `{}` is the
default criteria object. -/
structure Criteria where
  category : Option Str := none
  capability : Option Str := none
  keywords : Option (List Str) := none
  inputType : Option Str := none
  outputType : Option Str := none
deriving DecidableEq, Repr

/-- Category stage of `findTools`: `none` models the early `return []`. -/
def filterByCategory (r : Registry) (c : Criteria) (ids : List Str) :
    Option (List Str) :=
  match jsStr c.category with
  | none => some ids
  | some cat =>
    match aget r.categories cat with
    | none => none
    | some s => some (ids.filter (fun id => s.contains id))

/-- Capability stage of `findTools`: `none` models the early `return []`. -/
def filterByCapability (r : Registry) (c : Criteria) (ids : List Str) :
    Option (List Str) :=
  match jsStr c.capability with
  | none => some ids
  | some cap =>
    match aget r.capIdx (lower cap) with
    | none => none
    | some s => some (ids.filter (fun id => s.contains id))

/-- Keyword stage of `findTools`: a keyword with no index entry does not
filter (the code only narrows when `metadataIndex.get(key)` is present). -/
def filterByKeywords (r : Registry) (c : Criteria) (ids : List Str) :
    List Str :=
  match c.keywords with
  | none => ids
  | some kws =>
    kws.foldl
      (fun ids kw =>
        match aget r.kwIdx (lower kw) with
        | none => ids
        | some s => ids.filter (fun id => s.contains id))
      ids

/-- Input-type stage of `findTools` (reads the tool record itself). -/
def filterByInputType (r : Registry) (c : Criteria) (ids : List Str) :
    List Str :=
  match jsStr c.inputType with
  | none => ids
  | some ty =>
    ids.filter (fun id =>
      match aget r.tools id with
      | some t => t.inputTypes.contains ty
      | none => false)

/-- Output-type stage of `findTools` (reads the tool record itself). -/
def filterByOutputType (r : Registry) (c : Criteria) (ids : List Str) :
    List Str :=
  match jsStr c.outputType with
  | none => ids
  | some ty =>
    ids.filter (fun id =>
      match aget r.tools id with
      | some t => t.outputTypes.contains ty
      | none => false)

/-- Stages of `findTools` after the category filter: capability early
return, then the keyword / input-type / output-type narrowing, then the
final `map(id => this.get(id))`. -/
def findAfterCapability (r : Registry) (c : Criteria) (ids : List Str) :
    List Tool :=
  match filterByCapability r c ids with
  | none => []
  | some ids2 =>
    (filterByOutputType r c (filterByInputType r c
      (filterByKeywords r c ids2))).filterMap (aget r.tools)

/-- Embedding of `ToolRegistry.findTools`. -/
def findTools (r : Registry) (c : Criteria) : List Tool :=
  match filterByCategory r c (r.tools.map Prod.fst) with
  | none => []
  | some ids => findAfterCapability r c ids

/-- The `stats` argument of `recordToolUsage`: the success flag and the
optional numeric execution time. -/
structure UsageInput where
  success : Bool
  executionTime : Option ℚ
deriving DecidableEq, Repr

/-- The body of `recordToolUsage` acting on one `ToolStats` record: bump the
success or failure counter, fold a numeric execution time into the running
average, and stamp `lastUsed` (`now` models `new Date()`). -/
def updateStats (s : ToolStats) (u : UsageInput) (now : Nat) : ToolStats :=
  let s :=
    if u.success then { s with successCount := s.successCount + 1 }
    else { s with failureCount := s.failureCount + 1 }
  let s :=
    match u.executionTime with
    | some d =>
      let totalExecTime := s.averageExecutionTime * (s.totalExecutions : ℚ)
      { s with totalExecutions := s.totalExecutions + 1,
               averageExecutionTime := (totalExecTime + d) / ((s.totalExecutions : ℚ) + 1) }
    | none => s
  { s with lastUsed := some now }

/-- Embedding of `ToolRegistry.recordToolUsage`. -/
def recordToolUsage (r : Registry) (toolId : Str) (u : UsageInput) (now : Nat) :
    Bool × Registry :=
  match aget r.usageStats toolId with
  | none => (false, r)
  | some s =>
    (true, { r with usageStats := aset r.usageStats toolId (updateStats s u now) })

/-- Relevance score `getToolRecommendations` computes for one tool: +10 per
matching keyword, +5 for a name match, +3 for a (whole-)description match,
scaled by the historical success rate when the tool has been used. -/
def scoreTool (r : Registry) (queryLower : Str) (id : Str) (t : Tool) : ℚ :=
  let score : ℚ :=
    t.keywords.foldl (fun sc kw => if strIncl queryLower (lower kw) then sc + 10 else sc) 0
  let score : ℚ := if strIncl queryLower (lower t.name) then score + 5 else score
  let score : ℚ :=
    match jsStr t.description with
    | some d => if strIncl queryLower (lower d) then score + 3 else score
    | none => score
  match aget r.usageStats id with
  | some st =>
    let totalUses := st.successCount + st.failureCount
    if totalUses > 0 then
      let successRate : ℚ := (st.successCount : ℚ) / (totalUses : ℚ)
      score * (1/2 + 1/2 * successRate)
    else score
  | none => score

/-- Stable insertion of a scored element into a list sorted by descending
score: the element passes only strictly greater scores, so elements with
equal scores keep their original relative order — the behavior of the
(stable) JS `sort((a, b) => b[1] - a[1])`. -/
def insScored {α : Type} (key : α → ℚ) (x : α) : List α → List α
  | [] => [x]
  | y :: ys => if key x < key y then y :: insScored key x ys else x :: y :: ys

/-- Stable sort by descending score (insertion sort; stability makes it
agree with the JS engine sort on the comparator `b[1] - a[1]`). -/
def sortScored {α : Type} (key : α → ℚ) : List α → List α
  | [] => []
  | x :: xs => insScored key x (sortScored key xs)

/-- The scoring loop of `getToolRecommendations`: walk the registry entries
in insertion order, keeping `(id, score)` for each tool with positive
score (the JS `matchScores` map in insertion order). -/
def recsFold (r : Registry) (ql : Str) (acc : List (Str × ℚ)) :
    List (Str × Tool) → List (Str × ℚ)
  | [] => acc
  | p :: rest =>
    let sc := scoreTool r ql p.1 p.2
    recsFold r ql (if sc > 0 then acc ++ [(p.1, sc)] else acc) rest

/-- Embedding of `ToolRegistry.getToolRecommendations` (the `context`
parameter of the method is unused by its body): score every tool, keep the
positive ones, sort by descending score (the stable engine sort), and map
the ids back through `this.get`. -/
def getToolRecommendations (r : Registry) (query : Str) : List Tool :=
  (sortScored (fun p => p.2) (recsFold r (lower query) [] r.tools)).filterMap
    (fun p => aget r.tools p.1)

/-! ### Export / import (`exportData` / `importData`). -/

/-- The serializable snapshot `exportData` produces. -/
structure RegistryData where
  tools : List ToolDef
  usageStats : List (Str × ToolStats)
deriving DecidableEq, Repr

/-- Embedding of `ToolRegistry.exportData`: the destructuring
`const { execute, ...serializableTool } = tool` drops the execute handler,
and the map key overwrites the `id` property. -/
def exportData (r : Registry) : RegistryData :=
  { tools :=
      r.tools.map (fun p =>
        ⟨some p.1, some p.2.name, p.2.description, p.2.category,
         p.2.capabilities, p.2.keywords, p.2.inputTypes, p.2.outputTypes,
         false⟩),
    usageStats := r.usageStats }

/-- The tool-registration loop of `importData`; `uuid k` supplies the fresh
id for the k-th registration. -/
def importTools (r : Registry) (uuid : Nat → Str) (k : Nat) :
    List ToolDef → Nat × Registry
  | [] => (0, r)
  | d :: ds =>
    let res := registerTool r d (uuid k)
    let rest := importTools res.2 uuid (k + 1) ds
    (if res.1 then rest.1 + 1 else rest.1, rest.2)

/-- The usage-stats loop of `importData`: a snapshot entry is adopted only
for a tool id present in the (just rebuilt) registry. -/
def importStats (r : Registry) : List (Str × ToolStats) → Registry
  | [] => r
  | (toolId, st) :: rest =>
    let r :=
      if (aget r.tools toolId).isSome then
        { r with usageStats := aset r.usageStats toolId st }
      else r
    importStats r rest

/-- Embedding of `ToolRegistry.importData`: clear every map, re-register the
snapshot definitions, then adopt snapshot statistics for known ids.  Returns
the import count with the final registry. -/
def importData (_r : Registry) (data : RegistryData) (uuid : Nat → Str) :
    Nat × Registry :=
  let cleared := emptyRegistry
  let res := importTools cleared uuid 0 data.tools
  (res.1, importStats res.2 data.usageStats)

/-! ### The agent orchestrator (`initializeAgentOrchestrator`):
session contexts, `processQuery`, and the idle-context sweep. -/

/-- Role of one conversation turn. -/
inductive Role where
  | user
  | assistant
deriving DecidableEq, Repr

/-- One entry of `context.conversationHistory` as pushed by `processQuery`:
the user turn carries no `toolsUsed` field, the assistant turn does. -/
structure Turn where
  role : Role
  content : Str
  toolsUsed : Option (List Str)
  timestamp : Nat
deriving DecidableEq, Repr

/-- The fields of a session context that the embedded operations read or
write.  `lastUpdated` is a millisecond timestamp; no operation in the
orchestrator source ever writes it, so it may be absent. -/
structure SessionContext where
  cid : Str
  sessionId : Str
  userId : Str
  conversationHistory : List Turn
  lastUpdated : Option Int
deriving DecidableEq, Repr

/-- Modelled from the spec: the module defining `createToolExecutionContext`
is absent from the repository snapshot.  Per the specification a Context is
"created on first query of a session" with an id, the session id, the user
id and an (initially empty) ordered turn history; none of the orchestrator
operations under `src/` ever writes `lastUpdated`. -/
def createToolExecutionContext (sessionId userId cid : Str) : SessionContext :=
  { cid := cid, sessionId := sessionId, userId := userId,
    conversationHistory := [], lastUpdated := none }

/-- Outcome of the collaborator pipeline of one `processQuery` call, as far
as the stored history can observe it: either some step (analysis, planning,
execution or synthesis) threw before the two history pushes, or the
pipeline reached the pushes with a synthesized response (after which even a
failing `storeSession` no longer affects the history). -/
inductive QueryRun where
  | earlyFailure
  | completed (responseText : Str) (toolsUsed : List Str)
      (userTs assistantTs : Nat) (storeOk : Bool)
deriving DecidableEq, Repr

/-- Effect of one `processQuery` call on the stored conversation history:
on the success path the user turn and the assistant turn are pushed
back-to-back; on the error path (an exception before step 6) nothing is
pushed. -/
def processQueryHistory (h : List Turn) (queryText : Str) (run : QueryRun) :
    List Turn :=
  match run with
  | .earlyFailure => h
  | .completed resp tools uts ats _ =>
    h ++ [⟨.user, queryText, none, uts⟩, ⟨.assistant, resp, some tools, ats⟩]

/-- Effect of one `processQuery` call on its session context. -/
def processQuery (ctx : SessionContext) (queryText : Str) (run : QueryRun) :
    SessionContext :=
  { ctx with conversationHistory := processQueryHistory ctx.conversationHistory queryText run }

/-- A sequence of `processQuery` calls against the same session context. -/
def runQueries (ctx : SessionContext) : List (Str × QueryRun) → SessionContext
  | [] => ctx
  | (q, run) :: rest => runQueries (processQuery ctx q run) rest

/-- The opposite role. -/
def Role.other : Role → Role
  | .user => .assistant
  | .assistant => .user

/-- Turn roles alternate strictly starting from `e`. -/
def alternatesFrom (e : Role) : List Turn → Bool
  | [] => true
  | t :: ts => t.role == e && alternatesFrom e.other ts

/-- The history is a sequence of complete user/assistant pairs. -/
def completePairs : List Turn → Bool
  | [] => true
  | [_] => false
  | u :: a :: rest => u.role == .user && a.role == .assistant && completePairs rest

/-- Embedding of `cleanupIdleContexts`: evict every session whose
`now − lastUpdated` exceeds `maxAgeMs`, a missing `lastUpdated` counting as
the Unix epoch (`new Date(context.lastUpdated || 0)`).  Returns the
surviving map together with the `cleanedCount` result. -/
def cleanupIdleContexts (m : List (Str × SessionContext)) (now maxAgeMs : Int) :
    List (Str × SessionContext) × Nat :=
  let kept := m.filter (fun p => !(decide (now - (p.2.lastUpdated.getD 0) > maxAgeMs)))
  (kept, m.length - kept.length)

/-- Default `maxAgeMs` of `cleanupIdleContexts`: 30 minutes. -/
def cleanupDefaultMaxAgeMs : Int := 30 * 60 * 1000

/-- Period of the `setInterval` sweep installed by
`initializeAgentOrchestrator`: 15 minutes. -/
def sweepIntervalMs : Int := 15 * 60 * 1000

/-- One tick of the periodic sweep: `cleanupIdleContexts()` with its default
`maxAgeMs`. -/
def sweepTick (m : List (Str × SessionContext)) (now : Int) :
    List (Str × SessionContext) × Nat :=
  cleanupIdleContexts m now cleanupDefaultMaxAgeMs

/-! ### Lemmas about the JS map and set model. -/

theorem aget_aset_self {α : Type} (m : List (Str × α)) (k : Str) (v : α) :
    aget (aset m k v) k = some v := by
  induction m with
  | nil => simp [aset, aget]
  | cons p rest ih =>
    by_cases hp : p.1 = k <;> simp [aset, aget, hp, ih]

theorem aget_aset_ne {α : Type} (m : List (Str × α)) (k : Str) (v : α) (k' : Str)
    (h : k' ≠ k) : aget (aset m k v) k' = aget m k' := by
  induction m with
  | nil =>
    simp only [aset, aget]
    rw [if_neg (fun hh => h hh.symm)]
  | cons p rest ih =>
    by_cases hp : p.1 = k
    · subst hp
      simp only [aset, if_pos rfl, aget]
      rw [if_neg (fun hh => h hh.symm), if_neg (fun hh => h hh.symm)]
    · simp [aset, aget, hp, ih]

theorem aget_adel_self {α : Type} (m : List (Str × α)) (k : Str) :
    aget (adel m k) k = none := by
  induction m with
  | nil => simp [adel, aget]
  | cons p rest ih =>
    by_cases hp : p.1 = k <;> simp [adel, List.filter_cons, hp, aget, ih] <;>
      simpa [adel] using ih

theorem aget_adel_ne {α : Type} (m : List (Str × α)) (k k' : Str)
    (h : k' ≠ k) : aget (adel m k) k' = aget m k' := by
  induction m with
  | nil => rfl
  | cons p rest ih =>
    by_cases hp : p.1 = k
    · have hfilter : adel (p :: rest) k = adel rest k := by
        simp [adel, List.filter_cons, hp]
      rw [hfilter, ih]
      have hp' : ¬ p.1 = k' := fun hh => h (hh.symm.trans hp)
      simp [aget, hp']
    · have hfilter : adel (p :: rest) k = p :: adel rest k := by
        simp [adel, List.filter_cons, hp]
      rw [hfilter]
      by_cases hk : p.1 = k'
      · simp [aget, hk]
      · simp [aget, hk, ih]

theorem mem_sadd (s : List Str) (x y : Str) :
    x ∈ sadd s y ↔ x ∈ s ∨ x = y := by
  by_cases h : y ∈ s <;> simp [sadd, h]
  exact fun hx => hx ▸ h

theorem mem_sdel (s : List Str) (x y : Str) :
    x ∈ sdel s y ↔ x ∈ s ∧ x ≠ y := by
  simp [sdel, List.mem_filter]

theorem mem_idxAdd (m : List (Str × List Str)) (kk id k x : Str) :
    x ∈ (aget (idxAdd m kk id) k).getD [] ↔
      x ∈ (aget m k).getD [] ∨ (x = id ∧ k = kk) := by
  by_cases h : k = kk
  · subst h
    rw [idxAdd, aget_aset_self]
    simp [mem_sadd]
  · rw [idxAdd, aget_aset_ne _ _ _ _ h]
    simp [h]

theorem mem_addAll (ks : List Str) (m : List (Str × List Str)) (id k x : Str) :
    x ∈ (aget (addAll m ks id) k).getD [] ↔
      x ∈ (aget m k).getD [] ∨ (x = id ∧ k ∈ ks) := by
  induction ks generalizing m with
  | nil => simp [addAll]
  | cons kk ks ih =>
    have hstep : addAll m (kk :: ks) id = addAll (idxAdd m kk id) ks id := rfl
    rw [hstep, ih, mem_idxAdd]
    simp only [List.mem_cons]
    tauto

theorem mem_idxDrop (m : List (Str × List Str)) (kk id k x : Str) :
    x ∈ (aget (idxDrop m kk id) k).getD [] ↔
      x ∈ (aget m k).getD [] ∧ ¬(x = id ∧ k = kk) := by
  by_cases h : k = kk
  · subst h
    cases hm : aget m k with
    | none => simp [idxDrop, hm]
    | some s =>
      simp only [idxDrop, hm, Option.getD_some]
      by_cases hs : sdel s id = []
      · rw [if_pos hs, aget_adel_self]
        constructor
        · intro hx
          simp at hx
        · rintro ⟨hx, hni⟩
          have hmem : x ∈ sdel s id :=
            (mem_sdel s x id).mpr ⟨hx, fun he => hni ⟨he, trivial⟩⟩
          rw [hs] at hmem
          simp at hmem
      · rw [if_neg hs, aget_aset_self]
        simp only [Option.getD_some]
        rw [mem_sdel]
        constructor
        · rintro ⟨hx, hne⟩
          exact ⟨hx, fun hc => hne hc.1⟩
        · rintro ⟨hx, hni⟩
          exact ⟨hx, fun he => hni ⟨he, trivial⟩⟩
  · cases hm : aget m kk with
    | none => simp [idxDrop, hm, h]
    | some s =>
      simp only [idxDrop, hm]
      by_cases hs : sdel s id = []
      · rw [if_pos hs, aget_adel_ne _ _ _ h]
        simp [h]
      · rw [if_neg hs, aget_aset_ne _ _ _ _ h]
        simp [h]

theorem mem_removeAll (ks : List Str) (m : List (Str × List Str)) (id k x : Str) :
    x ∈ (aget (removeAll m ks id) k).getD [] ↔
      x ∈ (aget m k).getD [] ∧ ¬(x = id ∧ k ∈ ks) := by
  induction ks generalizing m with
  | nil => simp [removeAll]
  | cons kk ks ih =>
    have hstep : removeAll m (kk :: ks) id = removeAll (idxDrop m kk id) ks id := rfl
    rw [hstep, ih, mem_idxDrop]
    simp only [List.mem_cons]
    tauto

theorem aget_eq_some_unique {α : Type} {m : List (Str × α)} {k : Str} {a b : α}
    (ha : aget m k = some a) (hb : aget m k = some b) : a = b := by
  rw [ha] at hb
  exact Option.some.inj hb

theorem mem_catAdd (cats : List (Str × List Str)) (cat : Option Str) (id c x : Str) :
    x ∈ (aget (catAdd cats cat id) c).getD [] ↔
      x ∈ (aget cats c).getD [] ∨ (x = id ∧ jsStr cat = some c) := by
  cases hcat : jsStr cat with
  | none => simp [catAdd, hcat]
  | some c0 =>
    simp only [catAdd, hcat, mem_idxAdd, Option.some.injEq]
    constructor
    · rintro (h | ⟨hx, hc⟩)
      · exact Or.inl h
      · exact Or.inr ⟨hx, hc.symm⟩
    · rintro (h | ⟨hx, hc⟩)
      · exact Or.inl h
      · exact Or.inr ⟨hx, hc.symm⟩

theorem mem_catDrop (cats : List (Str × List Str)) (cat : Option Str) (id c x : Str) :
    x ∈ (aget (catDrop cats cat id) c).getD [] ↔
      x ∈ (aget cats c).getD [] ∧ ¬(x = id ∧ jsStr cat = some c) := by
  cases hcat : jsStr cat with
  | none => simp [catDrop, hcat]
  | some c0 =>
    simp only [catDrop, hcat, mem_idxDrop, Option.some.injEq]
    constructor
    · rintro ⟨h, hn⟩
      exact ⟨h, fun hc => hn ⟨hc.1, hc.2.symm⟩⟩
    · rintro ⟨h, hn⟩
      exact ⟨h, fun hc => hn ⟨hc.1, hc.2.symm⟩⟩

/-! ### Coherence of the registry indices (claim C6). -/

/-- Coherence of the secondary indices with the primary tool map: every
tool in the map is reachable through the index entries for exactly its own
name, (truthy) category, capabilities and keywords, and every index entry
refers to a tool currently in the map carrying the matching attribute. -/
structure Coherent (r : Registry) : Prop where
  nameOwn : ∀ id t, aget r.tools id = some t →
    aget r.nameIdx (lower t.name) = some id
  catOwn : ∀ id t c, aget r.tools id = some t → jsStr t.category = some c →
    id ∈ (aget r.categories c).getD []
  capOwn : ∀ id t k, aget r.tools id = some t → k ∈ t.capabilities.map lower →
    id ∈ (aget r.capIdx k).getD []
  kwOwn : ∀ id t k, aget r.tools id = some t → k ∈ t.keywords.map lower →
    id ∈ (aget r.kwIdx k).getD []
  nameBack : ∀ k id, aget r.nameIdx k = some id →
    ∃ t, aget r.tools id = some t ∧ k = lower t.name
  catBack : ∀ c id, id ∈ (aget r.categories c).getD [] →
    ∃ t, aget r.tools id = some t ∧ jsStr t.category = some c
  capBack : ∀ k id, id ∈ (aget r.capIdx k).getD [] →
    ∃ t, aget r.tools id = some t ∧ k ∈ t.capabilities.map lower
  kwBack : ∀ k id, id ∈ (aget r.kwIdx k).getD [] →
    ∃ t, aget r.tools id = some t ∧ k ∈ t.keywords.map lower

theorem coherent_empty : Coherent emptyRegistry := by
  refine ⟨?_, ?_, ?_, ?_, ?_, ?_, ?_, ?_⟩ <;> intros <;>
    simp_all [emptyRegistry, aget]

/-- One mutating registry operation. -/
inductive RegOp where
  | reg (d : ToolDef) (freshId : Str)
  | unreg (ident : Str)
deriving DecidableEq, Repr

/-- Apply one operation to the registry state. -/
def applyOp (r : Registry) : RegOp → Registry
  | .reg d f => (registerTool r d f).2
  | .unreg i => (unregisterTool r i).2

/-- Apply a sequence of registration / unregistration operations. -/
def runOps (r : Registry) : List RegOp → Registry
  | [] => r
  | op :: ops => runOps (applyOp r op) ops

/-- Freshness precondition of one operation: a registration that passes
validation must use an id not already in the tool map and a name that is
case-insensitively fresh; failing registrations and unregistrations carry no
precondition. -/
def opOK (r : Registry) : RegOp → Bool
  | .reg d f =>
    (match validateToolDefinition d with
     | .error _ => true
     | .ok t =>
       (aget r.tools ((jsStr t.tid).getD f)).isNone &&
       (aget r.nameIdx (lower t.name)).isNone)
  | .unreg _ => true

/-- Freshness precondition along a whole operation sequence. -/
def opsOK (r : Registry) : List RegOp → Bool
  | [] => true
  | op :: ops => opOK r op && opsOK (applyOp r op) ops

theorem registerTool_preserves_coherent (r : Registry) (d : ToolDef) (f : Str)
    (hC : Coherent r) (hOK : opOK r (.reg d f) = true) :
    Coherent (registerTool r d f).2 := by
  cases hv : validateToolDefinition d with
  | error e =>
    simp only [registerTool, hv]
    exact hC
  | ok t =>
    simp only [opOK, hv, Bool.and_eq_true, Option.isNone_iff_eq_none] at hOK
    obtain ⟨hid, hname⟩ := hOK
    simp only [registerTool, hv]
    show Coherent (registerOk r t ((jsStr t.tid).getD f))
    obtain ⟨nid, hnid⟩ : ∃ x, (jsStr t.tid).getD f = x := ⟨_, rfl⟩
    rw [hnid] at hid ⊢
    have htools : ∀ id : Str, aget (registerOk r t nid).tools id =
        if id = nid then some t else aget r.tools id := by
      intro id
      by_cases h : id = nid
      · subst h
        simp only [registerOk]
        rw [aget_aset_self]
        simp
      · simp only [registerOk]
        rw [aget_aset_ne _ _ _ _ h, if_neg h]
    have hnm : ∀ k : Str, aget (registerOk r t nid).nameIdx k =
        if k = lower t.name then some nid else aget r.nameIdx k := by
      intro k
      by_cases h : k = lower t.name
      · subst h
        simp only [registerOk]
        rw [aget_aset_self]
        simp
      · simp only [registerOk]
        rw [aget_aset_ne _ _ _ _ h, if_neg h]
    have hcats : ∀ c x : Str,
        x ∈ (aget (registerOk r t nid).categories c).getD [] ↔
        x ∈ (aget r.categories c).getD [] ∨ (x = nid ∧ jsStr t.category = some c) := by
      intro c x
      simp only [registerOk]
      exact mem_catAdd _ _ _ _ _
    have hcaps : ∀ k x : Str,
        x ∈ (aget (registerOk r t nid).capIdx k).getD [] ↔
        x ∈ (aget r.capIdx k).getD [] ∨ (x = nid ∧ k ∈ t.capabilities.map lower) := by
      intro k x
      simp only [registerOk]
      exact mem_addAll _ _ _ _ _
    have hkws : ∀ k x : Str,
        x ∈ (aget (registerOk r t nid).kwIdx k).getD [] ↔
        x ∈ (aget r.kwIdx k).getD [] ∨ (x = nid ∧ k ∈ t.keywords.map lower) := by
      intro k x
      simp only [registerOk]
      exact mem_addAll _ _ _ _ _
    have hne_of_mem : ∀ id t', aget r.tools id = some t' → id ≠ nid := by
      intro id t' h he
      rw [he, hid] at h
      cases h
    refine ⟨?_, ?_, ?_, ?_, ?_, ?_, ?_, ?_⟩
    · intro id t' hlook
      rw [htools id] at hlook
      by_cases h : id = nid
      · rw [if_pos h] at hlook
        injection hlook with ht
        subst ht
        rw [hnm, if_pos rfl, h]
      · rw [if_neg h] at hlook
        have hold := hC.nameOwn id t' hlook
        have hkne : lower t'.name ≠ lower t.name := by
          intro he
          rw [he, hname] at hold
          cases hold
        rw [hnm, if_neg hkne]
        exact hold
    · intro id t' c hlook hcat
      rw [htools id] at hlook
      rw [hcats]
      by_cases h : id = nid
      · rw [if_pos h] at hlook
        injection hlook with ht
        subst ht
        exact Or.inr ⟨h, hcat⟩
      · rw [if_neg h] at hlook
        exact Or.inl (hC.catOwn id t' c hlook hcat)
    · intro id t' k hlook hk
      rw [htools id] at hlook
      rw [hcaps]
      by_cases h : id = nid
      · rw [if_pos h] at hlook
        injection hlook with ht
        subst ht
        exact Or.inr ⟨h, hk⟩
      · rw [if_neg h] at hlook
        exact Or.inl (hC.capOwn id t' k hlook hk)
    · intro id t' k hlook hk
      rw [htools id] at hlook
      rw [hkws]
      by_cases h : id = nid
      · rw [if_pos h] at hlook
        injection hlook with ht
        subst ht
        exact Or.inr ⟨h, hk⟩
      · rw [if_neg h] at hlook
        exact Or.inl (hC.kwOwn id t' k hlook hk)
    · intro k id hlook
      rw [hnm] at hlook
      by_cases h : k = lower t.name
      · rw [if_pos h] at hlook
        injection hlook with hidd
        refine ⟨t, ?_, h⟩
        rw [htools, if_pos hidd.symm]
      · rw [if_neg h] at hlook
        obtain ⟨t', ht', hk⟩ := hC.nameBack k id hlook
        refine ⟨t', ?_, hk⟩
        rw [htools, if_neg (hne_of_mem id t' ht')]
        exact ht'
    · intro c id hmem
      rw [hcats] at hmem
      cases hmem with
      | inl hmem =>
        obtain ⟨t', ht', hcat⟩ := hC.catBack c id hmem
        refine ⟨t', ?_, hcat⟩
        rw [htools, if_neg (hne_of_mem id t' ht')]
        exact ht'
      | inr hmem =>
        obtain ⟨rfl, hcat⟩ := hmem
        refine ⟨t, ?_, hcat⟩
        rw [htools, if_pos rfl]
    · intro k id hmem
      rw [hcaps] at hmem
      cases hmem with
      | inl hmem =>
        obtain ⟨t', ht', hk⟩ := hC.capBack k id hmem
        refine ⟨t', ?_, hk⟩
        rw [htools, if_neg (hne_of_mem id t' ht')]
        exact ht'
      | inr hmem =>
        obtain ⟨rfl, hk⟩ := hmem
        refine ⟨t, ?_, hk⟩
        rw [htools, if_pos rfl]
    · intro k id hmem
      rw [hkws] at hmem
      cases hmem with
      | inl hmem =>
        obtain ⟨t', ht', hk⟩ := hC.kwBack k id hmem
        refine ⟨t', ?_, hk⟩
        rw [htools, if_neg (hne_of_mem id t' ht')]
        exact ht'
      | inr hmem =>
        obtain ⟨rfl, hk⟩ := hmem
        refine ⟨t, ?_, hk⟩
        rw [htools, if_pos rfl]

theorem unregisterTool_preserves_coherent (r : Registry) (ident : Str)
    (hC : Coherent r) : Coherent (unregisterTool r ident).2 := by
  rw [unregisterTool]
  cases hres : (if (aget r.tools ident).isSome then some ident
      else aget r.nameIdx (lower ident)) with
  | none => exact hC
  | some toolId =>
    show Coherent (match aget r.tools toolId with
      | none => (false, r)
      | some tool => (true, unregisterFound r toolId tool)).2
    cases htool : aget r.tools toolId with
    | none => exact hC
    | some tool =>
      show Coherent (unregisterFound r toolId tool)
      have htools : ∀ id : Str, aget (unregisterFound r toolId tool).tools id =
          if id = toolId then none else aget r.tools id := by
        intro id
        by_cases h : id = toolId
        · subst h
          simp only [unregisterFound]
          rw [aget_adel_self]
          simp
        · simp only [unregisterFound]
          rw [aget_adel_ne _ _ _ h, if_neg h]
      have hnm : ∀ k : Str, aget (unregisterFound r toolId tool).nameIdx k =
          if k = lower tool.name then none else aget r.nameIdx k := by
        intro k
        by_cases h : k = lower tool.name
        · subst h
          simp only [unregisterFound]
          rw [aget_adel_self]
          simp
        · simp only [unregisterFound]
          rw [aget_adel_ne _ _ _ h, if_neg h]
      have hcats : ∀ c x : Str,
          x ∈ (aget (unregisterFound r toolId tool).categories c).getD [] ↔
          x ∈ (aget r.categories c).getD [] ∧
            ¬(x = toolId ∧ jsStr tool.category = some c) := by
        intro c x
        simp only [unregisterFound]
        exact mem_catDrop _ _ _ _ _
      have hcaps : ∀ k x : Str,
          x ∈ (aget (unregisterFound r toolId tool).capIdx k).getD [] ↔
          x ∈ (aget r.capIdx k).getD [] ∧
            ¬(x = toolId ∧ k ∈ tool.capabilities.map lower) := by
        intro k x
        simp only [unregisterFound]
        exact mem_removeAll _ _ _ _ _
      have hkws : ∀ k x : Str,
          x ∈ (aget (unregisterFound r toolId tool).kwIdx k).getD [] ↔
          x ∈ (aget r.kwIdx k).getD [] ∧
            ¬(x = toolId ∧ k ∈ tool.keywords.map lower) := by
        intro k x
        simp only [unregisterFound]
        exact mem_removeAll _ _ _ _ _
      refine ⟨?_, ?_, ?_, ?_, ?_, ?_, ?_, ?_⟩
      · intro id t' hlook
        rw [htools id] at hlook
        by_cases h : id = toolId
        · rw [if_pos h] at hlook
          cases hlook
        · rw [if_neg h] at hlook
          have hold := hC.nameOwn id t' hlook
          have hkne : lower t'.name ≠ lower tool.name := by
            intro he
            have h2 := hC.nameOwn toolId tool htool
            rw [he] at hold
            rw [hold] at h2
            exact h (Option.some.inj h2)
          rw [hnm, if_neg hkne]
          exact hold
      · intro id t' c hlook hcat
        rw [htools id] at hlook
        by_cases h : id = toolId
        · rw [if_pos h] at hlook
          cases hlook
        · rw [if_neg h] at hlook
          rw [hcats]
          exact ⟨hC.catOwn id t' c hlook hcat, fun hcr => h hcr.1⟩
      · intro id t' k hlook hk
        rw [htools id] at hlook
        by_cases h : id = toolId
        · rw [if_pos h] at hlook
          cases hlook
        · rw [if_neg h] at hlook
          rw [hcaps]
          exact ⟨hC.capOwn id t' k hlook hk, fun hcr => h hcr.1⟩
      · intro id t' k hlook hk
        rw [htools id] at hlook
        by_cases h : id = toolId
        · rw [if_pos h] at hlook
          cases hlook
        · rw [if_neg h] at hlook
          rw [hkws]
          exact ⟨hC.kwOwn id t' k hlook hk, fun hcr => h hcr.1⟩
      · intro k id hlook
        rw [hnm] at hlook
        by_cases h : k = lower tool.name
        · rw [if_pos h] at hlook
          cases hlook
        · rw [if_neg h] at hlook
          obtain ⟨t', ht', hk⟩ := hC.nameBack k id hlook
          have hne : id ≠ toolId := by
            intro he
            rw [he] at ht'
            rw [htool] at ht'
            injection ht' with ht''
            rw [← ht''] at hk
            exact h hk
          refine ⟨t', ?_, hk⟩
          rw [htools, if_neg hne]
          exact ht'
      · intro c id hmem
        rw [hcats] at hmem
        obtain ⟨hmem, hnot⟩ := hmem
        obtain ⟨t', ht', hcat⟩ := hC.catBack c id hmem
        have hne : id ≠ toolId := by
          intro he
          rw [he] at ht'
          rw [htool] at ht'
          injection ht' with ht''
          rw [← ht''] at hcat
          exact hnot ⟨he, hcat⟩
        refine ⟨t', ?_, hcat⟩
        rw [htools, if_neg hne]
        exact ht'
      · intro k id hmem
        rw [hcaps] at hmem
        obtain ⟨hmem, hnot⟩ := hmem
        obtain ⟨t', ht', hk⟩ := hC.capBack k id hmem
        have hne : id ≠ toolId := by
          intro he
          rw [he] at ht'
          rw [htool] at ht'
          injection ht' with ht''
          rw [← ht''] at hk
          exact hnot ⟨he, hk⟩
        refine ⟨t', ?_, hk⟩
        rw [htools, if_neg hne]
        exact ht'
      · intro k id hmem
        rw [hkws] at hmem
        obtain ⟨hmem, hnot⟩ := hmem
        obtain ⟨t', ht', hk⟩ := hC.kwBack k id hmem
        have hne : id ≠ toolId := by
          intro he
          rw [he] at ht'
          rw [htool] at ht'
          injection ht' with ht''
          rw [← ht''] at hk
          exact hnot ⟨he, hk⟩
        refine ⟨t', ?_, hk⟩
        rw [htools, if_neg hne]
        exact ht'

theorem runOps_coherent (ops : List RegOp) : ∀ r : Registry, Coherent r →
    opsOK r ops = true → Coherent (runOps r ops) := by
  induction ops with
  | nil =>
    intro r hC _
    exact hC
  | cons op ops ih =>
    intro r hC hOK
    simp only [opsOK, Bool.and_eq_true] at hOK
    obtain ⟨h1, h2⟩ := hOK
    have hstep : Coherent (applyOp r op) := by
      cases op with
      | reg d f => exact registerTool_preserves_coherent r d f hC h1
      | unreg i => exact unregisterTool_preserves_coherent r i hC
    exact ih (applyOp r op) hstep h2

/-! ### Shared concrete data for witnesses and counterexamples. -/

/-- A complete tool definition used in concrete evaluations. -/
def echoDef : ToolDef :=
  ⟨some "a".toList, some "Echo".toList, some "repeats text".toList,
   some "util".toList, ["sound".toList], ["echo".toList],
   ["text".toList], ["text".toList], true⟩

/-- The registry holding exactly the `Echo` tool. -/
def echoReg : Registry := (registerTool emptyRegistry echoDef "x".toList).2

/-! ### Claim C6. -/

/-- Claim C6 (amended): after any sequence of `registerTool` and
`unregisterTool` calls starting from the empty registry in which every
successful registration uses a fresh id and a case-insensitively fresh
name, the by-name, by-category, by-capability and by-keyword indices are
coherent with the primary tool map: every index entry refers to a tool
currently in the map, and every tool is reachable through the entries for
exactly its own name, category, capabilities and keywords. -/
theorem c6_indices_coherent_of_fresh (ops : List RegOp)
    (h : opsOK emptyRegistry ops = true) :
    Coherent (runOps emptyRegistry ops) :=
  runOps_coherent ops emptyRegistry coherent_empty h

/-- Operation sequence exercising registration and unregistration. -/
def c6DemoOps : List RegOp :=
  [.reg ⟨some "a".toList, some "Alpha".toList, none, some "sys".toList,
      ["net".toList], ["ping".toList], [], [], true⟩ "x".toList,
   .reg ⟨some "b".toList, some "Beta".toList, none, some "sys".toList,
      ["net".toList, "time".toList], [], [], [], true⟩ "y".toList,
   .unreg "a".toList]

/-- Witness for C6: the concrete sequence satisfies the freshness
precondition and yields a coherent registry. -/
theorem c6_indices_coherent_of_fresh_witness :
    opsOK emptyRegistry c6DemoOps = true ∧
    Coherent (runOps emptyRegistry c6DemoOps) :=
  ⟨by decide, c6_indices_coherent_of_fresh c6DemoOps (by decide)⟩

/-- Two registrations whose names collide case-insensitively. -/
def c6CollideOps : List RegOp :=
  [.reg ⟨some "a".toList, some "Echo".toList, none, none, [], [], [], [], true⟩ "x".toList,
   .reg ⟨some "b".toList, some "echo".toList, none, none, [], [], [], [], true⟩ "y".toList]

/-- The tool stored under id `a` by the first registration of
`c6CollideOps`. -/
def c6ToolA : Tool :=
  ⟨some "a".toList, "Echo".toList, none, none, [], [], [], [], true⟩

/-- Counterexample for C6 as stated: after registering two tools whose
names collide case-insensitively, the indices are not coherent — the name
index points only at the newer tool, so the older tool is no longer
reachable through the entry for its own name. -/
theorem c6_counterexample : ¬ Coherent (runOps emptyRegistry c6CollideOps) := by
  intro h
  have h1 := h.nameOwn ("a".toList) c6ToolA (by decide)
  exact absurd h1 (by decide)

/-! ### Claim C1. -/

theorem validate_export_def (t : Tool) (id : Str) :
    ∃ e, validateToolDefinition
      ⟨some id, some t.name, t.description, t.category, t.capabilities,
       t.keywords, t.inputTypes, t.outputTypes, false⟩ = .error e := by
  by_cases h : t.name = []
  · exact ⟨.missingName, by simp [validateToolDefinition, jsStr, h]⟩
  · exact ⟨.missingExec, by simp [validateToolDefinition, jsStr, h]⟩

theorem importTools_all_fail (uuid : Nat → Str) (ds : List ToolDef)
    (h : ∀ d ∈ ds, ∃ e, validateToolDefinition d = .error e) :
    ∀ (r : Registry) (k : Nat), importTools r uuid k ds = (0, r) := by
  induction ds with
  | nil => intro r k; rfl
  | cons d ds ih =>
    intro r k
    obtain ⟨e, he⟩ := h d (List.mem_cons_self d ds)
    have hreg : registerTool r d (uuid k) = (false, r) := by
      simp [registerTool, he]
    simp only [importTools, hreg]
    rw [ih (fun d hd => h d (List.mem_cons_of_mem _ hd)) r (k + 1)]
    simp

theorem importStats_empty (l : List (Str × ToolStats)) :
    importStats emptyRegistry l = emptyRegistry := by
  induction l with
  | nil => rfl
  | cons e rest ih =>
    simp only [importStats, emptyRegistry, aget, Option.isSome_none,
      Bool.false_eq_true, if_false]
    exact ih

theorem importData_exportData_empty (r s : Registry) (uuid : Nat → Str) :
    importData s (exportData r) uuid = (0, emptyRegistry) := by
  have hfail : ∀ d ∈ (exportData r).tools,
      ∃ e, validateToolDefinition d = .error e := by
    intro d hd
    simp only [exportData, List.mem_map] at hd
    obtain ⟨p, _, rfl⟩ := hd
    exact validate_export_def p.2 p.1
  simp only [importData]
  rw [importTools_all_fail uuid _ hfail emptyRegistry 0]
  simp [importStats_empty]

/-- Claim C1: evaluating `importData(exportData(r))` at the one-tool
registry `echoReg` — the round trip does not reproduce the registry: every
exported definition lacks the execute handler, so each re-registration
fails validation and the result is the empty registry with an import count
of 0 (and `importData` accepts no handler table to rebind anything). -/
theorem c1_import_export_roundtrip_fails :
    importData echoReg (exportData echoReg) (fun _ => "u".toList)
      = (0, emptyRegistry) ∧
    echoReg.tools ≠ [] :=
  ⟨importData_exportData_empty echoReg echoReg _, by decide⟩

/-! ### Claim C3. -/

/-- Claim C3 (amended): a tool definition missing a required field (name or
execute handler) fails validation with a `ValidationError`, which
`registerTool` catches, returning false and leaving the registry unchanged.
(A case-insensitive name collision, by contrast, is not rejected — see the
counterexample.) -/
theorem c3_missing_required_field_rejected (r : Registry) (d : ToolDef) (f : Str)
    (h : jsStr d.name = none ∨ d.hasExec = false) :
    registerTool r d f = (false, r) ∧
    ∃ e, validateToolDefinition d = .error e := by
  have hval : ∃ e, validateToolDefinition d = .error e := by
    cases h with
    | inl h => exact ⟨.missingName, by simp [validateToolDefinition, h]⟩
    | inr h =>
      cases hn : jsStr d.name with
      | none => exact ⟨.missingName, by simp [validateToolDefinition, hn]⟩
      | some n => exact ⟨.missingExec, by simp [validateToolDefinition, hn, h]⟩
  obtain ⟨e, he⟩ := hval
  exact ⟨by simp [registerTool, he], e, he⟩

/-- A definition with no name at all. -/
def c3NoNameDef : ToolDef :=
  ⟨none, none, none, none, [], [], [], [], true⟩

/-- Witness for C3: the nameless definition is rejected and the registry
stays empty. -/
theorem c3_missing_required_field_rejected_witness :
    (jsStr c3NoNameDef.name = none ∨ c3NoNameDef.hasExec = false) ∧
    (registerTool emptyRegistry c3NoNameDef "x".toList = (false, emptyRegistry) ∧
     ∃ e, validateToolDefinition c3NoNameDef = .error e) :=
  ⟨Or.inl (by decide),
   c3_missing_required_field_rejected emptyRegistry c3NoNameDef "x".toList
     (Or.inl (by decide))⟩

/-- A second definition whose name collides case-insensitively with
`Echo`. -/
def c3EchoDef2 : ToolDef :=
  ⟨some "b".toList, some "echo".toList, none, none, [], [], [], [], true⟩

/-- Counterexample for C3 as stated: registering a tool whose name collides
case-insensitively with an existing tool does not fail — it returns true
and grows the registry to two tools. -/
theorem c3_counterexample :
    lower "Echo".toList = lower "echo".toList ∧
    (registerTool echoReg c3EchoDef2 "y".toList).1 = true ∧
    (registerTool echoReg c3EchoDef2 "y".toList).2.tools.length = 2 :=
  ⟨by decide, by decide, by decide⟩

/-! ### Claim C5. -/

/-- A sequence of `recordToolUsage` updates applied to one statistics
record (each with its `new Date()` timestamp). -/
def applyUsages (s : ToolStats) : List (UsageInput × Nat) → ToolStats
  | [] => s
  | (u, now) :: rest => applyUsages (updateStats s u now) rest

theorem applyUsages_counts (us : List (UsageInput × Nat)) : ∀ s : ToolStats,
    (applyUsages s us).successCount + (applyUsages s us).failureCount
      = s.successCount + s.failureCount + us.length ∧
    (applyUsages s us).totalExecutions
      = s.totalExecutions + (us.filter (fun u => u.1.executionTime.isSome)).length := by
  induction us with
  | nil => intro s; simp [applyUsages]
  | cons u rest ih =>
    intro s
    obtain ⟨ih1, ih2⟩ := ih (updateStats s u.1 u.2)
    have hstep : applyUsages s (u :: rest) = applyUsages (updateStats s u.1 u.2) rest := rfl
    have hsf : (updateStats s u.1 u.2).successCount + (updateStats s u.1 u.2).failureCount
        = s.successCount + s.failureCount + 1 := by
      cases hb : u.1.success <;> cases ht : u.1.executionTime <;>
        simp [updateStats, hb, ht] <;> omega
    have hte : (updateStats s u.1 u.2).totalExecutions
        = s.totalExecutions + (if u.1.executionTime.isSome then 1 else 0) := by
      cases hb : u.1.success <;> cases ht : u.1.executionTime <;>
        simp [updateStats, hb, ht]
    constructor
    · rw [hstep, ih1, hsf]
      simp [List.length_cons]
      omega
    · rw [hstep, ih2, hte]
      cases ht : u.1.executionTime with
      | none => simp [List.filter_cons, ht]
      | some d => simp [List.filter_cons, ht, Nat.add_comm, Nat.add_assoc]

/-- Claim C5 (amended): starting from fresh statistics, after any sequence
of `recordToolUsage` updates the recorded successes plus failures equal the
number of calls, while `totalExecutions` equals only the number of calls
that carried a numeric execution time; hence successes + failures ≥
totalExecutions always, with equality exactly when every call was timed. -/
theorem c5_stats_counters (us : List (UsageInput × Nat)) :
    (applyUsages initialStats us).successCount
        + (applyUsages initialStats us).failureCount = us.length ∧
    (applyUsages initialStats us).totalExecutions
        = (us.filter (fun u => u.1.executionTime.isSome)).length ∧
    (applyUsages initialStats us).totalExecutions ≤
      (applyUsages initialStats us).successCount
        + (applyUsages initialStats us).failureCount := by
  obtain ⟨h1, h2⟩ := applyUsages_counts us initialStats
  have h1' : (applyUsages initialStats us).successCount
      + (applyUsages initialStats us).failureCount = us.length := by
    simpa [initialStats] using h1
  have h2' : (applyUsages initialStats us).totalExecutions
      = (us.filter (fun u => u.1.executionTime.isSome)).length := by
    simpa [initialStats] using h2
  refine ⟨h1', h2', ?_⟩
  rw [h1', h2']
  exact List.length_filter_le _ _

/-- Counterexample for C5 as stated: recording one success without an
execution time puts the statistics of `Echo` at successes + failures = 1
but totalExecutions = 0. -/
theorem c5_counterexample :
    ∃ st : ToolStats,
      aget (recordToolUsage echoReg ("a".toList) ⟨true, none⟩ 5).2.usageStats
        ("a".toList) = some st ∧
      st.successCount + st.failureCount ≠ st.totalExecutions :=
  ⟨⟨1, 0, 0, 0, some 5⟩, by decide, by decide⟩

/-! ### Claim C7. -/

/-- Claim C7: a `recordToolUsage` call carrying a numeric execution time
`d`, on a tool with `n` prior executions and prior average `a`, sets the
execution count to `n + 1` and the average execution time to
`(a·n + d) / (n + 1)` (exact rational arithmetic standing for the JS
floating-point evaluation of the same expression). -/
theorem c7_average_update (r : Registry) (id : Str) (b : Bool) (d : ℚ)
    (now : Nat) (s : ToolStats) (h : aget r.usageStats id = some s) :
    ∃ s', aget (recordToolUsage r id ⟨b, some d⟩ now).2.usageStats id = some s' ∧
      s'.totalExecutions = s.totalExecutions + 1 ∧
      s'.averageExecutionTime =
        (s.averageExecutionTime * (s.totalExecutions : ℚ) + d)
          / ((s.totalExecutions : ℚ) + 1) := by
  refine ⟨updateStats s ⟨b, some d⟩ now, ?_, ?_, ?_⟩
  · simp only [recordToolUsage, h]
    exact aget_aset_self _ _ _
  · cases b <;> simp [updateStats]
  · cases b <;> simp [updateStats]

/-- Witness for C7: recording a timed success on the fresh `Echo`
statistics. -/
theorem c7_average_update_witness :
    aget echoReg.usageStats ("a".toList) = some initialStats ∧
    (∃ s', aget (recordToolUsage echoReg ("a".toList) ⟨true, some 4⟩ 9).2.usageStats
        ("a".toList) = some s' ∧
      s'.totalExecutions = initialStats.totalExecutions + 1 ∧
      s'.averageExecutionTime =
        (initialStats.averageExecutionTime * (initialStats.totalExecutions : ℚ) + 4)
          / ((initialStats.totalExecutions : ℚ) + 1)) :=
  ⟨by decide,
   c7_average_update echoReg ("a".toList) true 4 9 initialStats (by decide)⟩

/-! ### Claim C9. -/

theorem completePairs_alternatesFrom (h : List Turn)
    (hc : completePairs h = true) : alternatesFrom .user h = true := by
  induction h using completePairs.induct with
  | case1 => rfl
  | case2 t => simp [completePairs] at hc
  | case3 u a rest ih =>
    simp only [completePairs, Bool.and_eq_true, beq_iff_eq] at hc
    obtain ⟨⟨hu, ha⟩, hrest⟩ := hc
    simp [alternatesFrom, hu, ha, Role.other, ih hrest]

theorem completePairs_append_pair (h : List Turn) (u a : Turn)
    (hu : u.role = .user) (ha : a.role = .assistant)
    (hc : completePairs h = true) :
    completePairs (h ++ [u, a]) = true := by
  induction h using completePairs.induct with
  | case1 => simp [completePairs, hu, ha]
  | case2 t => simp [completePairs] at hc
  | case3 x y rest ih =>
    simp only [completePairs, Bool.and_eq_true, beq_iff_eq] at hc
    obtain ⟨⟨hx, hy⟩, hrest⟩ := hc
    have hih := ih hrest
    simp [completePairs, hx, hy, List.cons_append, hih]

theorem processQuery_preserves_pairs (ctx : SessionContext) (q : Str)
    (run : QueryRun)
    (hc : completePairs ctx.conversationHistory = true) :
    completePairs (processQuery ctx q run).conversationHistory = true := by
  cases run with
  | earlyFailure => simpa [processQuery, processQueryHistory] using hc
  | completed resp tools uts ats sok =>
    simp only [processQuery, processQueryHistory]
    exact completePairs_append_pair _ _ _ rfl rfl hc

theorem runQueries_pairs (qs : List (Str × QueryRun)) :
    ∀ ctx : SessionContext, completePairs ctx.conversationHistory = true →
    completePairs (runQueries ctx qs).conversationHistory = true := by
  induction qs with
  | nil =>
    intro ctx hc
    exact hc
  | cons q rest ih =>
    intro ctx hc
    exact ih _ (processQuery_preserves_pairs ctx q.1 q.2 hc)

/-- Claim C9: for every session context reachable by `processQuery` calls
from a fresh context, the stored conversation turn roles alternate strictly
user, assistant, user, …; each call appends either nothing (an exception
before step 6, the error path) or a complete user/assistant pair (the
success path, also when the subsequent `storeSession` fails), so the
alternation is preserved by every call. -/
theorem c9_history_alternates (sessionId userId cid : Str)
    (qs : List (Str × QueryRun)) :
    alternatesFrom .user
      (runQueries (createToolExecutionContext sessionId userId cid)
        qs).conversationHistory = true := by
  apply completePairs_alternatesFrom
  apply runQueries_pairs
  rfl

/-! ### Claim C8. -/

/-- Claim C8: one sweep of `cleanupIdleContexts` evicts exactly the
sessions whose context satisfies now − lastUpdated > maxAgeMs, keeps every
other context in the map unchanged, the default maxAgeMs is 30 minutes,
and the orchestrator runs the sweep (with that default) on a 15-minute
timer. -/
theorem c8_idle_sweep (m : List (Str × SessionContext)) (now maxAgeMs : Int)
    (s : Str) (ctx : SessionContext) (lu : Int)
    (hlu : ctx.lastUpdated = some lu) :
    ((s, ctx) ∈ (cleanupIdleContexts m now maxAgeMs).1 ↔
      (s, ctx) ∈ m ∧ ¬(now - lu > maxAgeMs)) ∧
    cleanupDefaultMaxAgeMs = 30 * 60 * 1000 ∧
    sweepIntervalMs = 15 * 60 * 1000 ∧
    sweepTick m now = cleanupIdleContexts m now cleanupDefaultMaxAgeMs := by
  refine ⟨?_, rfl, rfl, rfl⟩
  simp [cleanupIdleContexts, List.mem_filter, hlu]

/-- A context whose lastUpdated is 100 ms after the epoch. -/
def c8Ctx : SessionContext :=
  { cid := "c".toList, sessionId := "s".toList, userId := "u".toList,
    conversationHistory := [], lastUpdated := some 100 }

/-- Witness for C8: a one-session map swept at now = 200 with
maxAgeMs = 50. -/
theorem c8_idle_sweep_witness :
    c8Ctx.lastUpdated = some 100 ∧
    ((("s".toList, c8Ctx) ∈ (cleanupIdleContexts [("s".toList, c8Ctx)] 200 50).1 ↔
        ("s".toList, c8Ctx) ∈ [("s".toList, c8Ctx)] ∧ ¬((200 : Int) - 100 > 50)) ∧
      cleanupDefaultMaxAgeMs = 30 * 60 * 1000 ∧
      sweepIntervalMs = 15 * 60 * 1000 ∧
      sweepTick [("s".toList, c8Ctx)] 200 =
        cleanupIdleContexts [("s".toList, c8Ctx)] 200 cleanupDefaultMaxAgeMs) :=
  ⟨rfl, c8_idle_sweep [("s".toList, c8Ctx)] 200 50 ("s".toList) c8Ctx 100 rfl⟩

/-! ### Claim C10. -/

/-- Claim C10 (amended): a context whose lastUpdated was never written has
its idle age computed from the Unix epoch (the comparison is now − 0), so
it is evicted by any sweep whose clock satisfies now > maxAgeMs — which
holds for every realistic positive maxAgeMs, the clock being milliseconds
since 1970 — regardless of how recently the context was used; a sweep with
maxAgeMs ≥ now, however, keeps it. -/
theorem c10_epoch_eviction (m : List (Str × SessionContext)) (now maxAgeMs : Int)
    (s : Str) (ctx : SessionContext) (hlu : ctx.lastUpdated = none) :
    ((s, ctx) ∈ (cleanupIdleContexts m now maxAgeMs).1 ↔
      (s, ctx) ∈ m ∧ ¬(now - 0 > maxAgeMs)) ∧
    (maxAgeMs < now → (s, ctx) ∉ (cleanupIdleContexts m now maxAgeMs).1) := by
  have hmem : (s, ctx) ∈ (cleanupIdleContexts m now maxAgeMs).1 ↔
      (s, ctx) ∈ m ∧ ¬(now - 0 > maxAgeMs) := by
    simp [cleanupIdleContexts, List.mem_filter, hlu]
  refine ⟨hmem, fun hlt hmem2 => ?_⟩
  rw [hmem] at hmem2
  exact hmem2.2 (by omega)

/-- A context that never had lastUpdated written. -/
def c10Ctx : SessionContext :=
  { cid := "c".toList, sessionId := "s".toList, userId := "u".toList,
    conversationHistory := [], lastUpdated := none }

/-- Witness for C10: a sweep at clock 200 with maxAgeMs = 50 evicts the
lastUpdated-less context. -/
theorem c10_epoch_eviction_witness :
    c10Ctx.lastUpdated = none ∧
    (((("s".toList, c10Ctx) ∈ (cleanupIdleContexts [("s".toList, c10Ctx)] 200 50).1 ↔
        ("s".toList, c10Ctx) ∈ [("s".toList, c10Ctx)] ∧ ¬((200 : Int) - 0 > 50)) ∧
      ((50 : Int) < 200 →
        ("s".toList, c10Ctx) ∉ (cleanupIdleContexts [("s".toList, c10Ctx)] 200 50).1))) :=
  ⟨rfl, c10_epoch_eviction [("s".toList, c10Ctx)] 200 50 ("s".toList) c10Ctx rfl⟩

/-- Counterexample for C10 as stated: maxAgeMs = 20 is positive, yet a
sweep at clock now = 10 does not evict the lastUpdated-less context — the
claim promises eviction for every positive maxAgeMs. -/
theorem c10_counterexample :
    c10Ctx.lastUpdated = none ∧ (0 : Int) < 20 ∧
    (cleanupIdleContexts [("s".toList, c10Ctx)] 10 20).1 =
      [("s".toList, c10Ctx)] :=
  ⟨rfl, by decide, by decide⟩

/-! ### Claim C4. -/

theorem filterMapCongr {α β : Type} (f g : α → Option β) (l : List α)
    (h : ∀ x ∈ l, f x = g x) : l.filterMap f = l.filterMap g := by
  induction l with
  | nil => rfl
  | cons a l ih =>
    simp only [List.filterMap_cons, h a (List.mem_cons_self a l)]
    rw [ih (fun x hx => h x (List.mem_cons_of_mem a hx))]

theorem filter_keys_filterMap (m : List (Str × Tool)) (P : Str → Bool)
    (hnd : (m.map Prod.fst).Nodup) :
    ((m.map Prod.fst).filter P).filterMap (aget m) =
      (m.filter (fun p => P p.1)).map Prod.snd := by
  induction m with
  | nil => rfl
  | cons p rest ih =>
    simp only [List.map_cons, List.nodup_cons] at hnd
    obtain ⟨hnotin, hnd'⟩ := hnd
    have hrest : ∀ x ∈ (rest.map Prod.fst).filter P,
        aget (p :: rest) x = aget rest x := by
      intro x hx
      have hx' : x ∈ rest.map Prod.fst := List.mem_of_mem_filter hx
      have hne : ¬ p.1 = x := fun he => hnotin (he ▸ hx')
      simp [aget, hne]
    have hself : aget (p :: rest) p.1 = some p.2 := by simp [aget]
    by_cases hp : P p.1
    · simp only [List.map_cons, List.filter_cons, hp, if_pos,
        List.filterMap_cons, hself]
      rw [filterMapCongr _ _ _ hrest, ih hnd']
    · simp only [List.map_cons, List.filter_cons, hp]
      simp only [Bool.false_eq_true, if_false]
      rw [filterMapCongr _ _ _ hrest, ih hnd']

/-- Per-tool category criterion as the code evaluates it: membership in the
category index entry (an unknown category matches nothing). -/
def catPass (r : Registry) (c : Criteria) (id : Str) : Bool :=
  match jsStr c.category with
  | none => true
  | some cat => ((aget r.categories cat).getD []).contains id

/-- Per-tool capability criterion: membership in the lowercased capability
index entry (an unknown capability matches nothing). -/
def capPass (r : Registry) (c : Criteria) (id : Str) : Bool :=
  match jsStr c.capability with
  | none => true
  | some cap => ((aget r.capIdx (lower cap)).getD []).contains id

/-- Per-tool keyword criterion: each keyword narrows to its index entry,
but a keyword with no index entry does not filter at all. -/
def kwPass (r : Registry) (c : Criteria) (id : Str) : Bool :=
  match c.keywords with
  | none => true
  | some kws =>
    kws.all (fun kw =>
      match aget r.kwIdx (lower kw) with
      | none => true
      | some s => s.contains id)

/-- Per-tool input-type criterion: the tool record declares the type. -/
def inPass (r : Registry) (c : Criteria) (id : Str) : Bool :=
  match jsStr c.inputType with
  | none => true
  | some ty =>
    match aget r.tools id with
    | some t => t.inputTypes.contains ty
    | none => false

/-- Per-tool output-type criterion: the tool record declares the type. -/
def outPass (r : Registry) (c : Criteria) (id : Str) : Bool :=
  match jsStr c.outputType with
  | none => true
  | some ty =>
    match aget r.tools id with
    | some t => t.outputTypes.contains ty
    | none => false

/-- The amended per-tool matching predicate of `findTools`: the conjunction
of the five criteria, each interpreted as the code does. -/
def amendedMatch (r : Registry) (c : Criteria) (id : Str) : Bool :=
  catPass r c id && capPass r c id && kwPass r c id &&
    inPass r c id && outPass r c id

theorem kwFold_eq (r : Registry) (kws : List Str) : ∀ ids : List Str,
    kws.foldl (fun ids kw =>
      match aget r.kwIdx (lower kw) with
      | none => ids
      | some s => ids.filter (fun id => s.contains id)) ids
    = ids.filter (fun id => kws.all (fun kw =>
        match aget r.kwIdx (lower kw) with
        | none => true
        | some s => s.contains id)) := by
  induction kws with
  | nil =>
    intro ids
    simp only [List.foldl_nil, List.all_nil]
    symm
    apply List.filter_eq_self.mpr
    intro a _
    rfl
  | cons kw kws ih =>
    intro ids
    simp only [List.foldl_cons]
    cases hkw : aget r.kwIdx (lower kw) with
    | none =>
      rw [ih]
      apply List.filter_congr
      intro id _
      simp [hkw, List.all_cons]
    | some s =>
      rw [ih, List.filter_filter]
      apply List.filter_congr
      intro id _
      simp only [List.all_cons, hkw]
      exact Bool.and_comm _ _

theorem filterByKeywords_eq (r : Registry) (c : Criteria) (ids : List Str) :
    filterByKeywords r c ids = ids.filter (kwPass r c) := by
  cases hk : c.keywords with
  | none =>
    simp only [filterByKeywords, hk]
    symm
    apply List.filter_eq_self.mpr
    intro a _
    simp [kwPass, hk]
  | some kws =>
    simp only [filterByKeywords, hk]
    rw [kwFold_eq]
    apply List.filter_congr
    intro id _
    simp [kwPass, hk]

theorem filterByInputType_eq (r : Registry) (c : Criteria) (ids : List Str) :
    filterByInputType r c ids = ids.filter (inPass r c) := by
  cases ht : jsStr c.inputType with
  | none =>
    simp only [filterByInputType, ht]
    symm
    apply List.filter_eq_self.mpr
    intro a _
    simp [inPass, ht]
  | some ty =>
    simp only [filterByInputType, ht]
    apply List.filter_congr
    intro id _
    simp [inPass, ht]

theorem filterByOutputType_eq (r : Registry) (c : Criteria) (ids : List Str) :
    filterByOutputType r c ids = ids.filter (outPass r c) := by
  cases ht : jsStr c.outputType with
  | none =>
    simp only [filterByOutputType, ht]
    symm
    apply List.filter_eq_self.mpr
    intro a _
    simp [outPass, ht]
  | some ty =>
    simp only [filterByOutputType, ht]
    apply List.filter_congr
    intro id _
    simp [outPass, ht]

theorem findTools_tail_eq (r : Registry) (c : Criteria) (ids : List Str) :
    (filterByOutputType r c (filterByInputType r c
        (filterByKeywords r c ids))).filterMap (aget r.tools)
    = (ids.filter (fun id => kwPass r c id && inPass r c id && outPass r c id)).filterMap
        (aget r.tools) := by
  rw [filterByKeywords_eq, filterByInputType_eq, filterByOutputType_eq,
    List.filter_filter, List.filter_filter]
  congr 1
  apply List.filter_congr
  intro id _
  cases h1 : kwPass r c id <;> cases h2 : inPass r c id <;>
    cases h3 : outPass r c id <;> rfl

theorem findAfterCapability_eq (r : Registry) (c : Criteria) (ids : List Str) :
    findAfterCapability r c ids
    = (ids.filter (fun id => capPass r c id &&
        (kwPass r c id && inPass r c id && outPass r c id))).filterMap
        (aget r.tools) := by
  cases hc : jsStr c.capability with
  | none =>
    have h2 : filterByCapability r c ids = some ids := by
      simp [filterByCapability, hc]
    simp only [findAfterCapability, h2]
    rw [findTools_tail_eq]
    congr 1
    apply List.filter_congr
    intro id _
    simp [capPass, hc]
  | some cap =>
    cases hidx : aget r.capIdx (lower cap) with
    | none =>
      have h2 : filterByCapability r c ids = none := by
        simp [filterByCapability, hc, hidx]
      simp only [findAfterCapability, h2]
      have hall : ids.filter (fun id => capPass r c id &&
          (kwPass r c id && inPass r c id && outPass r c id)) = [] := by
        apply List.filter_eq_nil_iff.mpr
        intro id _
        simp [capPass, hc, hidx]
      rw [hall]
      rfl
    | some s =>
      have h2 : filterByCapability r c ids =
          some (ids.filter (fun id => s.contains id)) := by
        simp [filterByCapability, hc, hidx]
      simp only [findAfterCapability, h2]
      rw [findTools_tail_eq, List.filter_filter]
      congr 1
      apply List.filter_congr
      intro id _
      simp only [capPass, hc, hidx, Option.getD_some]
      exact Bool.and_comm _ _

theorem findTools_eq_filter (r : Registry) (c : Criteria)
    (hnd : (r.tools.map Prod.fst).Nodup) :
    findTools r c = (r.tools.filter (fun p => amendedMatch r c p.1)).map Prod.snd := by
  rw [← filter_keys_filterMap r.tools (amendedMatch r c) hnd]
  cases hcat : jsStr c.category with
  | none =>
    have h1 : filterByCategory r c (r.tools.map Prod.fst)
        = some (r.tools.map Prod.fst) := by
      simp [filterByCategory, hcat]
    simp only [findTools, h1]
    rw [findAfterCapability_eq]
    congr 1
    apply List.filter_congr
    intro id _
    simp only [amendedMatch, catPass, hcat, Bool.true_and]
    cases h2 : capPass r c id <;> cases h3 : kwPass r c id <;>
      cases h4 : inPass r c id <;> cases h5 : outPass r c id <;> rfl
  | some cat =>
    cases hidx : aget r.categories cat with
    | none =>
      have h1 : filterByCategory r c (r.tools.map Prod.fst) = none := by
        simp [filterByCategory, hcat, hidx]
      simp only [findTools, h1]
      have hall : (r.tools.map Prod.fst).filter (amendedMatch r c) = [] := by
        apply List.filter_eq_nil_iff.mpr
        intro id _
        simp [amendedMatch, catPass, hcat, hidx]
      rw [hall]
      rfl
    | some s =>
      have h1 : filterByCategory r c (r.tools.map Prod.fst)
          = some ((r.tools.map Prod.fst).filter (fun id => s.contains id)) := by
        simp [filterByCategory, hcat, hidx]
      simp only [findTools, h1]
      rw [findAfterCapability_eq, List.filter_filter]
      congr 1
      apply List.filter_congr
      intro id _
      simp only [amendedMatch, catPass, hcat, hidx, Option.getD_some]
      cases hh : s.contains id <;> cases h2 : capPass r c id <;>
        cases h3 : kwPass r c id <;> cases h4 : inPass r c id <;>
        cases h5 : outPass r c id <;> rfl

/-- Claim C4 (amended): provided tool ids are unique (as they are for a JS
`Map`), `findTools` returns exactly the tools matching the conjunction of
the supplied criteria, where the category and capability criteria select
via the respective index entries (an unknown value selects nothing), each
supplied keyword narrows via its index entry except that a keyword with no
index entry does not filter at all, and input/output types are read off
the tool record; an absent criterion does not filter, so `findTools {}`
returns exactly all registered tools. -/
theorem c4_find_tools_intersection (r : Registry) (c : Criteria)
    (hnd : (r.tools.map Prod.fst).Nodup) :
    findTools r c = (r.tools.filter (fun p => amendedMatch r c p.1)).map Prod.snd ∧
    findTools r {} = r.tools.map Prod.snd := by
  refine ⟨findTools_eq_filter r c hnd, ?_⟩
  rw [findTools_eq_filter r {} hnd]
  have hall : r.tools.filter (fun p => amendedMatch r {} p.1) = r.tools :=
    List.filter_eq_self.mpr (fun p _ => rfl)
  rw [hall]

/-- A category-only criteria object. -/
def c4Crit : Criteria := { category := some "util".toList }

/-- Witness for C4: `findTools` on the one-tool registry with a category
criterion and with empty criteria. -/
theorem c4_find_tools_intersection_witness :
    (echoReg.tools.map Prod.fst).Nodup ∧
    (findTools echoReg c4Crit =
        (echoReg.tools.filter (fun p => amendedMatch echoReg c4Crit p.1)).map Prod.snd ∧
      findTools echoReg {} = echoReg.tools.map Prod.snd) :=
  ⟨by decide, c4_find_tools_intersection echoReg c4Crit (by decide)⟩

/-- Tool-attribute matching as the claim reads it: a tool matches each
supplied criterion through its own attributes (its category, its
capabilities, its keywords, its input/output types). -/
def claimedMatch (c : Criteria) (t : Tool) : Bool :=
  (match c.category with
   | none => true
   | some cat => t.category == some cat) &&
  (match c.capability with
   | none => true
   | some cap => (t.capabilities.map lower).contains (lower cap)) &&
  (match c.keywords with
   | none => true
   | some kws => kws.all (fun kw => (t.keywords.map lower).contains (lower kw))) &&
  (match c.inputType with
   | none => true
   | some ty => t.inputTypes.contains ty) &&
  (match c.outputType with
   | none => true
   | some ty => t.outputTypes.contains ty)

/-- The set intersection of the claim, per tool attributes. -/
def claimedFindTools (r : Registry) (c : Criteria) : List Tool :=
  (r.tools.filter (fun p => claimedMatch c p.2)).map Prod.snd

/-- Criteria asking for the unknown keyword `zzz`. -/
def c4KwCrit : Criteria := { keywords := some ["zzz".toList] }

/-- Counterexample for C4 as stated: no registered tool matches the
keyword criterion `zzz` (the claimed intersection is empty), yet
`findTools` returns the `Echo` tool because a keyword with no index entry
does not filter. -/
theorem c4_counterexample :
    claimedFindTools echoReg c4KwCrit = [] ∧
    (findTools echoReg c4KwCrit).length = 1 :=
  ⟨by decide, by decide⟩

/-! ### Claim C2. -/

theorem mem_insScored {α : Type} (key : α → ℚ) (x : α) (l : List α) (y : α) :
    y ∈ insScored key x l ↔ y ∈ l ∨ y = x := by
  induction l with
  | nil => simp [insScored]
  | cons z l ih =>
    simp only [insScored]
    by_cases h : key x < key z
    · rw [if_pos h]
      simp only [List.mem_cons, ih]
      tauto
    · rw [if_neg h]
      simp only [List.mem_cons]
      tauto

theorem mem_sortScored {α : Type} (key : α → ℚ) (l : List α) (y : α) :
    y ∈ sortScored key l ↔ y ∈ l := by
  induction l with
  | nil => simp [sortScored]
  | cons x l ih =>
    simp only [sortScored, mem_insScored, ih, List.mem_cons]
    tauto

theorem insScored_map {α β : Type} (keyA : α → ℚ) (keyB : β → ℚ) (g : α → β)
    (hkey : ∀ a, keyB (g a) = keyA a) (x : α) (l : List α) :
    insScored keyB (g x) (l.map g) = (insScored keyA x l).map g := by
  induction l with
  | nil => rfl
  | cons z l ih =>
    simp only [List.map_cons, insScored, hkey]
    by_cases h : keyA x < keyA z
    · rw [if_pos h, if_pos h, ih]
      rfl
    · rw [if_neg h, if_neg h]
      rfl

theorem sortScored_map {α β : Type} (keyA : α → ℚ) (keyB : β → ℚ) (g : α → β)
    (hkey : ∀ a, keyB (g a) = keyA a) (l : List α) :
    sortScored keyB (l.map g) = (sortScored keyA l).map g := by
  induction l with
  | nil => rfl
  | cons x l ih =>
    simp only [List.map_cons, sortScored, ih]
    exact insScored_map keyA keyB g hkey x (sortScored keyA l)

theorem filterMap_eq_map_of_some {α β : Type} (f : α → Option β) (h : α → β)
    (l : List α) (hf : ∀ x ∈ l, f x = some (h x)) :
    l.filterMap f = l.map h := by
  induction l with
  | nil => rfl
  | cons a l ih =>
    simp only [List.filterMap_cons, hf a (List.mem_cons_self a l), List.map_cons]
    rw [ih (fun x hx => hf x (List.mem_cons_of_mem a hx))]

theorem aget_of_mem_nodup {α : Type} (m : List (Str × α))
    (hnd : (m.map Prod.fst).Nodup) (p : Str × α) (hp : p ∈ m) :
    aget m p.1 = some p.2 := by
  induction m with
  | nil => cases hp
  | cons q rest ih =>
    simp only [List.map_cons, List.nodup_cons] at hnd
    obtain ⟨hq, hnd'⟩ := hnd
    cases hp with
    | head => simp [aget]
    | tail _ hp' =>
      have hne : ¬ q.1 = p.1 := by
        intro he
        exact hq (he ▸ List.mem_map_of_mem Prod.fst hp')
      simp only [aget, hne, if_neg]
      exact ih hnd' hp'

theorem recsFold_eq (r : Registry) (ql : Str) (l : List (Str × Tool)) :
    ∀ acc : List (Str × ℚ),
      recsFold r ql acc l
      = acc ++ (l.filter (fun p => decide (scoreTool r ql p.1 p.2 > 0))).map
          (fun p => (p.1, scoreTool r ql p.1 p.2)) := by
  induction l with
  | nil => intro acc; simp [recsFold]
  | cons p rest ih =>
    intro acc
    simp only [recsFold]
    by_cases h : scoreTool r ql p.1 p.2 > 0
    · rw [if_pos h, ih, List.filter_cons, if_pos (by simpa using h)]
      simp
    · rw [if_neg h, ih, List.filter_cons, if_neg (by simpa using h)]

theorem kwScoreFold_eq (ql : Str) (kws : List Str) : ∀ init : ℚ,
    kws.foldl (fun sc kw => if strIncl ql (lower kw) then sc + 10 else sc) init
    = init + 10 * (kws.countP (fun kw => strIncl ql (lower kw)) : ℚ) := by
  induction kws with
  | nil =>
    intro init
    simp
  | cons kw kws ih =>
    intro init
    simp only [List.foldl_cons, List.countP_cons]
    by_cases h : strIncl ql (lower kw) = true
    · rw [if_pos h, ih]
      simp only [h, if_pos]
      push_cast
      ring
    · rw [if_neg h, ih]
      simp only [h]
      push_cast
      ring

/-- Amended scoring rule, written from the amended claim: +10 per keyword
that is a (case-folded) substring of the query, +5 when the query contains
the tool name, +3 when the query contains the entire (truthy, case-folded)
description, the sum multiplied by `0.5 + 0.5 · successes/(successes +
failures)` only when the tool has at least one recorded use (otherwise the
sum stands unscaled). -/
def amendedScore (r : Registry) (ql : Str) (id : Str) (t : Tool) : ℚ :=
  let base : ℚ :=
    10 * (t.keywords.countP (fun kw => strIncl ql (lower kw)) : ℚ)
      + (if strIncl ql (lower t.name) then 5 else 0)
      + (match jsStr t.description with
         | some d => if strIncl ql (lower d) then 3 else 0
         | none => 0)
  let factor : ℚ :=
    match aget r.usageStats id with
    | some st =>
      if st.successCount + st.failureCount > 0 then
        1/2 + 1/2 * ((st.successCount : ℚ)
          / ((st.successCount : ℚ) + (st.failureCount : ℚ)))
      else 1
    | none => 1
  base * factor

theorem scoreTool_eq_amended (r : Registry) (ql id : Str) (t : Tool) :
    scoreTool r ql id t = amendedScore r ql id t := by
  simp only [scoreTool, amendedScore, kwScoreFold_eq, zero_add]
  cases hst : aget r.usageStats id with
  | none =>
    cases hd : jsStr t.description with
    | none =>
      by_cases h1 : strIncl ql (lower t.name) = true <;> simp [h1]
    | some d =>
      by_cases h1 : strIncl ql (lower t.name) = true <;>
        by_cases h2 : strIncl ql (lower d) = true <;> simp [h1, h2]
  | some st =>
    have hcast : ((st.successCount + st.failureCount : ℕ) : ℚ)
        = (st.successCount : ℚ) + (st.failureCount : ℚ) := by push_cast; ring
    by_cases hu : st.successCount + st.failureCount > 0
    · cases hd : jsStr t.description with
      | none =>
        by_cases h1 : strIncl ql (lower t.name) = true <;>
          simp [h1, hu, hcast]
      | some d =>
        by_cases h1 : strIncl ql (lower t.name) = true <;>
          by_cases h2 : strIncl ql (lower d) = true <;>
          simp [h1, h2, hu, hcast]
    · cases hd : jsStr t.description with
      | none =>
        by_cases h1 : strIncl ql (lower t.name) = true <;>
          simp [h1, hu]
      | some d =>
        by_cases h1 : strIncl ql (lower t.name) = true <;>
          by_cases h2 : strIncl ql (lower d) = true <;>
          simp [h1, h2, hu]

/-- Amended recommendation list written from the amended claim's words:
annotate every registered tool with its amended score, keep those with
positive score, stable-sort by descending score (ties keeping registry
insertion order), and return the tools. -/
def amendedRecommend (r : Registry) (query : Str) : List Tool :=
  (sortScored (fun q => q.2)
    ((r.tools.filter (fun p => decide (amendedScore r (lower query) p.1 p.2 > 0))).map
      (fun p => (p, amendedScore r (lower query) p.1 p.2)))).map (fun q => q.1.2)

/-- Claim C2 (amended): provided tool ids are unique, the recommendation
operation returns exactly the tools with positive score, in descending
score order with ties keeping registry insertion order (the engine sort is
stable; there is no success-rate or name tie-break), where the score adds
+10 per keyword that is a case-folded substring of the query, +5 if the
query contains the tool name, +3 if the query contains the entire
case-folded description, and the sum is multiplied by
`0.5 + 0.5·successes/(successes+failures)` only when the tool has at least
one recorded use. -/
theorem c2_recommendations (r : Registry) (query : Str)
    (hnd : (r.tools.map Prod.fst).Nodup) :
    getToolRecommendations r query = amendedRecommend r query := by
  have hmemS : ∀ p ∈ sortScored (fun p : Str × Tool => scoreTool r (lower query) p.1 p.2)
      (r.tools.filter (fun p => decide (scoreTool r (lower query) p.1 p.2 > 0))),
      aget r.tools p.1 = some p.2 := by
    intro p hp
    have hp' := (mem_sortScored _ _ p).mp hp
    exact aget_of_mem_nodup r.tools hnd p (List.mem_of_mem_filter hp')
  have hleft : getToolRecommendations r query
      = (sortScored (fun p : Str × Tool => scoreTool r (lower query) p.1 p.2)
          (r.tools.filter (fun p => decide (scoreTool r (lower query) p.1 p.2 > 0)))).map
          (fun p => p.2) := by
    rw [getToolRecommendations, recsFold_eq, List.nil_append]
    rw [sortScored_map (fun p : Str × Tool => scoreTool r (lower query) p.1 p.2)
      (fun q : Str × ℚ => q.2)
      (fun p => (p.1, scoreTool r (lower query) p.1 p.2)) (fun a => rfl)]
    rw [List.filterMap_map]
    exact filterMap_eq_map_of_some _ _ _ (fun p hp => hmemS p hp)
  have h1 : r.tools.filter (fun p => decide (amendedScore r (lower query) p.1 p.2 > 0))
      = r.tools.filter (fun p => decide (scoreTool r (lower query) p.1 p.2 > 0)) := by
    apply List.filter_congr
    intro p _
    rw [scoreTool_eq_amended]
  have h2 : (r.tools.filter (fun p => decide (scoreTool r (lower query) p.1 p.2 > 0))).map
        (fun p => (p, amendedScore r (lower query) p.1 p.2))
      = (r.tools.filter (fun p => decide (scoreTool r (lower query) p.1 p.2 > 0))).map
        (fun p => (p, scoreTool r (lower query) p.1 p.2)) := by
    apply List.map_eq_map_iff.mpr
    intro p _
    rw [scoreTool_eq_amended]
  have hright : amendedRecommend r query
      = (sortScored (fun p : Str × Tool => scoreTool r (lower query) p.1 p.2)
          (r.tools.filter (fun p => decide (scoreTool r (lower query) p.1 p.2 > 0)))).map
          (fun p => p.2) := by
    rw [amendedRecommend, h1, h2]
    rw [sortScored_map (fun p : Str × Tool => scoreTool r (lower query) p.1 p.2)
      (fun q : (Str × Tool) × ℚ => q.2)
      (fun p => (p, scoreTool r (lower query) p.1 p.2)) (fun a => rfl)]
    rw [List.map_map]
    apply List.map_eq_map_iff.mpr
    intro p _
    rfl
  rw [hleft, hright]

/-- Witness for C2: recommendations over the one-tool registry for a query
matching the `echo` keyword. -/
theorem c2_recommendations_witness :
    (echoReg.tools.map Prod.fst).Nodup ∧
    getToolRecommendations echoReg ("please echo now".toList)
      = amendedRecommend echoReg ("please echo now".toList) :=
  ⟨by decide, c2_recommendations echoReg ("please echo now".toList) (by decide)⟩

/-- All contiguous 3-character substrings. -/
def threeGrams : Str → List Str
  | a :: b :: c :: rest => [a, b, c] :: threeGrams (b :: c :: rest)
  | _ => []

/-- The scoring rule exactly as the claim states it: +3 already when the
query contains any 3-gram of the description, and the success-rate factor
`0.5 + 0.5·(successes / max(1, successes+failures))` applied always. -/
def claimedScore (r : Registry) (ql : Str) (id : Str) (t : Tool) : ℚ :=
  let st := (aget r.usageStats id).getD initialStats
  let base : ℚ :=
    10 * (t.keywords.countP (fun kw => strIncl ql (lower kw)) : ℚ)
      + (if strIncl ql (lower t.name) then 5 else 0)
      + (match t.description with
         | some d => if (threeGrams (lower d)).any (fun g3 => strIncl ql g3) then 3 else 0
         | none => 0)
  base * (1/2 + 1/2 * ((st.successCount : ℚ)
      / ((max 1 (st.successCount + st.failureCount) : ℕ) : ℚ)))

/-- A tool whose description contains the 3-gram `hel` but is not itself
contained in the query `hello`. -/
def c2HelloDef : ToolDef :=
  ⟨some "a".toList, some "zz".toList, some "hello world".toList, none,
   [], [], [], [], true⟩

/-- The registry holding only that tool. -/
def c2HelloReg : Registry := (registerTool emptyRegistry c2HelloDef "x".toList).2

/-- The stored form of that tool. -/
def c2HelloTool : Tool :=
  ⟨some "a".toList, "zz".toList, some "hello world".toList, none,
   [], [], [], [], true⟩

/-- Counterexample for C2 as stated: on the query `hello` the registered
tool has positive claimed score (its description has the 3-gram `hel`, and
the zero-use factor is 0.5), yet the code returns no recommendation — the
code requires the query to contain the entire description. -/
theorem c2_counterexample :
    aget c2HelloReg.tools ("a".toList) = some c2HelloTool ∧
    claimedScore c2HelloReg (lower "hello".toList) ("a".toList) c2HelloTool > 0 ∧
    getToolRecommendations c2HelloReg ("hello".toList) = [] := by
  refine ⟨by decide, ?_, by decide⟩
  have hstats : aget c2HelloReg.usageStats ("a".toList) = some initialStats := by
    decide
  have h3g : (threeGrams (lower ("hello world".toList))).any
      (fun g3 => strIncl (lower "hello".toList) g3) = true := by decide
  have hname : strIncl (lower "hello".toList) (lower ("zz".toList)) = false := by
    decide
  simp only [claimedScore, hstats, Option.getD_some, c2HelloTool, initialStats,
    List.countP_nil, h3g, hname]
  norm_num
